import Mathlib

/-!
Verification development for the EPyT time-stepped co-simulation driver and
result-aggregation protocol.  The repository delegates all numerics to the
external EPANET engine; the driver, aggregator and orchestrator are the
sequencing core specified in the design document (spec sections 3, 4, 6, 7).
The engine is modelled as a deterministic script of step outcomes, and the
driver, aggregator, orchestrator, session close and link-diameter accessors
are embedded as executable Lean functions.
-/

namespace EPyT

/-- Modelled from the spec: the error taxonomy of spec section 7 for the parts
reachable by the driver (the concrete Python class `epyt.epanet` is not in the
source tree; only docs, the paper and network files are).  `convergence` carries
the clock time at which the engine's solver failed. -/
inductive SimError where
  | convergence (time : Nat)
  | initFailed
  | engineInternal
deriving DecidableEq, Repr

/-- Modelled from the spec: one engine interaction of the stepping API of spec
section 6.  An `ok` step is a successful `runStep` that reports the current
clock `time`, lets the driver read attribute values through
`read attributeId entityIndex` (entity indices are 1-based, spec section 3),
and whose following `advance` call returns `tstep` seconds until the next
event (0 signals the terminal step).  A `fail` step is a `runStep` that raises
the given engine error. -/
inductive StepResult where
  | ok (time : Nat) (read : Nat → Nat → Int) (tstep : Nat)
  | fail (e : SimError)

/-- Modelled from the spec: a Result Bundle (spec section 3): an ordered
sequence of recorded times and, per tracked attribute, a 2-D table whose rows
are recorded times and whose columns are entities in a fixed order; it is
mutable until finalized. -/
structure Bundle where
  times : List Nat
  tables : List (List (List Int))
  finalized : Bool
deriving DecidableEq, Repr

/-- Modelled from the spec: reading one attribute for all tracked entities in
the fixed 1-based entity index ordering (spec section 3): column `j` (0-based)
holds the value of the entity with 1-based index `j + 1`. -/
def captureRow (n : Nat) (f : Nat → Int) : List Int :=
  (List.range n).map (fun j => f (j + 1))

/-- Modelled from the spec: capturing one Time Step Record: one row per
selected attribute, each aligned to the fixed entity ordering. -/
def capture (n : Nat) (attrs : List Nat) (read : Nat → Nat → Int) :
    List (List Int) :=
  attrs.map (fun a => captureRow n (read a))

/-- Modelled from the spec: a Result Bundle is created empty when a driver run
starts, with one (empty) table per selected attribute. -/
def emptyBundle (attrs : List Nat) : Bundle :=
  { times := [], tables := attrs.map (fun _ => []), finalized := false }

/-- Modelled from the spec: the aggregator's `append` (spec section 4.2):
appends one entry to the recorded-times sequence and one row to every tracked
attribute table. -/
def appendRecord (b : Bundle) (t : Nat) (rows : List (List Int)) : Bundle :=
  { b with
    times := b.times ++ [t]
    tables := List.zipWith (fun tbl row => tbl ++ [row]) b.tables rows }

/-- Modelled from the spec: `finalize` marks the bundle read-only. -/
def finalize (b : Bundle) : Bundle :=
  { b with finalized := true }

/-- Modelled from the spec: the driver decides whether to record by observing
the clock time the engine reports, discarding duplicate-time steps (spec
section 4.1).  The de-duplication rule left open in spec section 9 is resolved
here as keep-first: a step is recorded iff its reported time differs from the
last recorded time. -/
def stepBundle (n : Nat) (attrs : List Nat) (b : Bundle) (t : Nat)
    (read : Nat → Nat → Int) : Bundle :=
  if b.times.getLast? = some t then b
  else appendRecord b t (capture n attrs read)

/-- Modelled from the spec: the Time-Series Driver loop of spec section 4.1
(the concrete `getComputedHydraulicTimeSeries` implementation is absent from
the source tree): `runStep`, capture a Time Step Record, `advance`; stop and
finalize when `advance` returns 0, surface engine failures as errors.  An
exhausted script is an engine-internal failure. -/
def runSeriesAux (n : Nat) (attrs : List Nat) :
    List StepResult → Bundle → Except SimError Bundle
  | [], _ => .error .engineInternal
  | .fail e :: _, _ => .error e
  | .ok t read ts :: rest, b =>
      let b1 := stepBundle n attrs b t read
      if ts = 0 then .ok (finalize b1) else runSeriesAux n attrs rest b1

/-- Modelled from the spec: a driver run starting from a freshly created empty
Result Bundle. -/
def runSeries (n : Nat) (attrs : List Nat) (s : List StepResult) :
    Except SimError Bundle :=
  runSeriesAux n attrs s (emptyBundle attrs)

/-- Modelled from the spec: `runHydraulicSeries` of spec section 6. -/
def runHydraulicSeries (n : Nat) (attrs : List Nat) (s : List StepResult) :
    Except SimError Bundle :=
  runSeries n attrs s

/-- Modelled from the spec: `runQualitySeries` of spec section 6. -/
def runQualitySeries (n : Nat) (attrs : List Nat) (s : List StepResult) :
    Except SimError Bundle :=
  runSeries n attrs s

/-- The engine interactions actually consumed by a driver run: everything up
to and including the first failing step or the first step whose `advance`
returned 0. -/
def consumedSteps : List StepResult → List StepResult
  | [] => []
  | .fail e :: _ => [.fail e]
  | .ok t read ts :: rest =>
      .ok t read ts :: (if ts = 0 then [] else consumedSteps rest)

/-- The clock times of the successful `runStep` calls a run consumes before
(and including the step at which) `advance` returns 0. -/
def okTimes : List StepResult → List Nat
  | [] => []
  | .fail _ :: _ => []
  | .ok t _ ts :: rest => t :: (if ts = 0 then [] else okTimes rest)

/-- The read snapshots of the steps the driver actually records, given the
last recorded time so far; mirrors the keep-first de-duplication rule. -/
def keptReads (last : Option Nat) : List StepResult → List (Nat → Nat → Int)
  | [] => []
  | .fail _ :: _ => []
  | .ok t read ts :: rest =>
      if last = some t then (if ts = 0 then [] else keptReads last rest)
      else read :: (if ts = 0 then [] else keptReads (some t) rest)

/-- Collapse of consecutive duplicate times, parameterized by the last kept
time; `collapseOpt none` is the driver's recording rule on a raw time list. -/
def collapseOpt (last : Option Nat) : List Nat → List Nat
  | [] => []
  | t :: ts =>
      if last = some t then collapseOpt last ts
      else t :: collapseOpt (some t) ts

/-- Recorded times of a run result (empty on failure). -/
def recordedTimes : Except SimError Bundle → List Nat
  | .ok b => b.times
  | .error _ => []

/-- Attribute tables of a run result (empty on failure). -/
def tablesOf : Except SimError Bundle → List (List (List Int))
  | .ok b => b.tables
  | .error _ => []

/-- Whether a run result is a successfully finalized bundle. -/
def isOkRun : Except SimError Bundle → Bool
  | .ok _ => true
  | .error _ => false

/-- Modelled from the spec: the inputs of one combined run (spec section 4.3):
the engine script the hydraulic driver will consume, whether the quality
`initAnalysis` succeeds, and the engine script the quality driver will
consume. -/
structure CombinedScript where
  hydScript : List StepResult
  qualInitOk : Bool
  qualScript : List StepResult

/-- Modelled from the spec: the outcome of a combined run: the hydraulic
failure alone, or the finalized hydraulic bundle together with the quality
failure, or both finalized bundles, kept separate (not reindexed to a common
time grid, spec section 4.3). -/
inductive CombinedResult where
  | hydFailed (e : SimError)
  | qualFailed (hyd : Bundle) (e : SimError)
  | ok (hyd : Bundle) (qual : Bundle)
deriving DecidableEq, Repr

/-- Modelled from the spec: the Co-Simulation Orchestrator `runCombinedSeries`
(spec section 4.3): run the hydraulic driver; on failure surface it and never
attempt the quality run; otherwise initialize quality and run the quality
driver, keeping the already finalized hydraulic bundle in every outcome. -/
def runCombinedSeries (n : Nat) (hAttrs qAttrs : List Nat)
    (cs : CombinedScript) : CombinedResult :=
  match runHydraulicSeries n hAttrs cs.hydScript with
  | .error e => .hydFailed e
  | .ok hb =>
      if cs.qualInitOk then
        match runQualitySeries n qAttrs cs.qualScript with
        | .error e => .qualFailed hb e
        | .ok qb => .ok hb qb
      else .qualFailed hb .initFailed

/-- The hydraulic sub-bundle a caller can still inspect in a combined-run
outcome. -/
def hydBundleOf : CombinedResult → Option Bundle
  | .hydFailed _ => none
  | .qualFailed hb _ => some hb
  | .ok hb _ => some hb

/-- The quality sub-bundle of a combined-run outcome. -/
def qualBundleOf : CombinedResult → Option Bundle
  | .hydFailed _ => none
  | .qualFailed _ _ => none
  | .ok _ qb => some qb

/-- Modelled from the spec: the observable native-resource state of a
Simulation Session (spec sections 3 and 6): whether the engine handle is
still open, and how many times the native resources have been released. -/
structure Session where
  handleOpen : Bool
  releases : Nat
deriving DecidableEq, Repr

/-- Modelled from the spec: `close(handle)` (spec section 6): releases the
native resources when the handle is open, and is a no-op on an already-closed
handle. -/
def close (s : Session) : Session :=
  if s.handleOpen then { handleOpen := false, releases := s.releases + 1 }
  else s

/-- Modelled from the spec and the usage examples: the mutable per-link
diameter state of one loaded network model; 1-based link index `k` is stored
at 0-based position `k - 1`. -/
structure NetworkModel where
  linkDiameters : List Int
deriving DecidableEq, Repr

/-- Modelled from the spec and the usage examples: `setLinkDiameter(index, v)`
updates the diameter of the link with 1-based `index` in the open model. -/
def setLinkDiameter (m : NetworkModel) (index : Nat) (v : Int) : NetworkModel :=
  { m with linkDiameters := m.linkDiameters.set (index - 1) v }

/-- Modelled from the spec and the usage examples: `getLinkDiameter(index)`
reads the diameter of the link with 1-based `index` from the open model. -/
def getLinkDiameter (m : NetworkModel) (index : Nat) : Int :=
  m.linkDiameters.getD (index - 1) 0

/-- The sequence of Result Bundle states the aggregator passes through during
one driver run, from the initial bundle to the last state reached (the
finalized bundle on success, the last accumulated state on failure). -/
def bundleTrace (n : Nat) (attrs : List Nat) :
    List StepResult → Bundle → List Bundle
  | [], b => [b]
  | .fail _ :: _, b => [b]
  | .ok t read ts :: rest, b =>
      let b1 := stepBundle n attrs b t read
      b :: (if ts = 0 then [finalize b1] else bundleTrace n attrs rest b1)

/-- The shape invariant of a Result Bundle (spec section 3): one table per
selected attribute, every table with exactly one row per recorded time, and
every row with one column per tracked entity. -/
def wfShape (n : Nat) (attrs : List Nat) (b : Bundle) : Prop :=
  b.tables.length = attrs.length ∧
  (∀ tbl ∈ b.tables, tbl.length = b.times.length) ∧
  (∀ tbl ∈ b.tables, ∀ row ∈ tbl, row.length = n)

instance (n : Nat) (attrs : List Nat) (b : Bundle) :
    Decidable (wfShape n attrs b) := by
  unfold wfShape; infer_instance

/-- One bundle state extends another when the recorded times and every
attribute table of the former are extended only by appending at the end:
existing rows are never changed and columns are never reordered. -/
def extendsTo (b b' : Bundle) : Prop :=
  (∃ u, b'.times = b.times ++ u) ∧
  List.Forall₂ (fun tbl tbl' => ∃ u, tbl' = tbl ++ u) b.tables b'.tables

theorem runSeriesAux_times (n : Nat) (attrs : List Nat) :
    ∀ (s : List StepResult) (b b' : Bundle),
      runSeriesAux n attrs s b = .ok b' →
      b'.times = b.times ++ collapseOpt b.times.getLast? (okTimes s) := by
  intro s
  induction s with
  | nil => intro b b' h; simp [runSeriesAux] at h
  | cons hd rest ih =>
      intro b b' h
      cases hd with
      | fail e => simp [runSeriesAux] at h
      | ok t read ts =>
          simp only [runSeriesAux] at h
          by_cases hts : ts = 0
          · rw [if_pos hts] at h
            injection h with h
            subst h
            by_cases hrec : b.times.getLast? = some t
            · simp [okTimes, collapseOpt, hrec, hts, finalize, stepBundle]
            · simp [okTimes, collapseOpt, hrec, hts, finalize, stepBundle,
                appendRecord]
          · rw [if_neg hts] at h
            have ihb := ih (stepBundle n attrs b t read) b' h
            by_cases hrec : b.times.getLast? = some t
            · rw [ihb]
              simp [stepBundle, hrec, okTimes, collapseOpt, hts]
            · rw [ihb]
              simp only [stepBundle, if_neg hrec, appendRecord]
              rw [List.getLast?_concat]
              simp [okTimes, collapseOpt, hrec, hts, List.append_assoc]

theorem zipWithExt {α β γ : Type} (f g : α → β → γ)
    (hfg : ∀ a b, f a b = g a b) :
    ∀ (l1 : List α) (l2 : List β),
      List.zipWith f l1 l2 = List.zipWith g l1 l2 := by
  intro l1
  induction l1 with
  | nil => intro l2; rfl
  | cons a l1 ih =>
      intro l2
      cases l2 with
      | nil => rfl
      | cons b l2 => simp [List.zipWith, hfg, ih]

theorem zipWithFuse {α β γ δ : Type} (f : γ → β → δ) (g : α → β → γ) :
    ∀ (l1 : List α) (l2 : List β),
      List.zipWith f (List.zipWith g l1 l2) l2 =
        List.zipWith (fun a b => f (g a b) b) l1 l2 := by
  intro l1
  induction l1 with
  | nil => intro l2; rfl
  | cons a l1 ih =>
      intro l2
      cases l2 with
      | nil => rfl
      | cons b l2 => simp [List.zipWith, ih]

theorem zipWithFstOfLen {α β : Type} :
    ∀ (l1 : List α) (l2 : List β), l1.length = l2.length →
      List.zipWith (fun a _ => a) l1 l2 = l1 := by
  intro l1
  induction l1 with
  | nil => intro l2 _; rfl
  | cons a l1 ih =>
      intro l2 hlen
      cases l2 with
      | nil => simp at hlen
      | cons b l2 =>
          simp only [List.length_cons, Nat.succ.injEq] at hlen
          simp [List.zipWith, ih l2 hlen]

theorem zipWithAppendNil {β : Type} :
    ∀ (l1 : List (List (List Int))) (l2 : List β), l1.length = l2.length →
      List.zipWith (fun tbl _ => tbl ++ ([] : List (List Int))) l1 l2 = l1 := by
  intro l1
  induction l1 with
  | nil => intro l2 _; rfl
  | cons a l1 ih =>
      intro l2 hlen
      cases l2 with
      | nil => simp at hlen
      | cons b l2 =>
          simp only [List.length_cons, Nat.succ.injEq] at hlen
          rw [List.zipWith_cons_cons, List.append_nil, ih l2 hlen]

theorem zipWithConstSame {β γ : Type} (K : β → γ) :
    ∀ (l : List β), List.zipWith (fun _ b => K b) l l = l.map K := by
  intro l
  induction l with
  | nil => rfl
  | cons a l ih => simp [List.zipWith, ih]

theorem capture_length (n : Nat) (attrs : List Nat) (read : Nat → Nat → Int) :
    (capture n attrs read).length = attrs.length := by
  simp [capture]

theorem runSeriesAux_tables (n : Nat) (attrs : List Nat) :
    ∀ (s : List StepResult) (b b' : Bundle),
      b.tables.length = attrs.length →
      runSeriesAux n attrs s b = .ok b' →
      b'.tables = List.zipWith
        (fun tbl a =>
          tbl ++ (keptReads b.times.getLast? s).map (fun g => captureRow n (g a)))
        b.tables attrs := by
  intro s
  induction s with
  | nil => intro b b' _ h; simp [runSeriesAux] at h
  | cons hd rest ih =>
      intro b b' hlen h
      cases hd with
      | fail e => simp [runSeriesAux] at h
      | ok t read ts =>
          simp only [runSeriesAux] at h
          by_cases hts : ts = 0
          · subst hts
            rw [if_pos rfl] at h
            injection h with h
            subst h
            by_cases hrec : b.times.getLast? = some t
            · have hk : keptReads b.times.getLast?
                  (StepResult.ok t read 0 :: rest) = [] := by
                simp [keptReads, hrec]
              rw [hk]
              simp only [finalize, stepBundle, if_pos hrec, List.map_nil]
              exact (zipWithAppendNil b.tables attrs hlen).symm
            · simp only [finalize, stepBundle, if_neg hrec, appendRecord,
                capture]
              rw [List.zipWith_map_right]
              simp [keptReads, hrec]
          · rw [if_neg hts] at h
            by_cases hrec : b.times.getLast? = some t
            · have hb1 : stepBundle n attrs b t read = b := by
                simp [stepBundle, hrec]
              rw [hb1] at h
              have ihb := ih b b' hlen h
              rw [ihb]
              simp [keptReads, hrec, hts]
            · have hlen1 :
                  (stepBundle n attrs b t read).tables.length = attrs.length := by
                simp [stepBundle, if_neg hrec, appendRecord,
                  List.length_zipWith, capture_length, hlen]
              have ihb := ih (stepBundle n attrs b t read) b' hlen1 h
              rw [ihb]
              simp only [stepBundle, if_neg hrec, appendRecord, capture]
              rw [List.getLast?_concat, List.zipWith_map_right, zipWithFuse]
              simp [keptReads, hrec, hts, List.append_assoc]

theorem collapseOpt_sublist :
    ∀ (l : List Nat) (last : Option Nat), List.Sublist (collapseOpt last l) l := by
  intro l
  induction l with
  | nil => intro last; simp [collapseOpt]
  | cons t ts ih =>
      intro last
      by_cases h : last = some t
      · rw [collapseOpt, if_pos h]
        exact (ih last).cons t
      · rw [collapseOpt, if_neg h]
        exact (ih (some t)).cons₂ t

theorem collapseOpt_head_ne :
    ∀ (l : List Nat) (a y : Nat),
      (collapseOpt (some a) l).head? = some y → y ≠ a := by
  intro l
  induction l with
  | nil => intro a y h; simp [collapseOpt] at h
  | cons t ts ih =>
      intro a y h
      by_cases ha : (some a : Option Nat) = some t
      · rw [collapseOpt, if_pos ha] at h
        exact ih a y h
      · rw [collapseOpt, if_neg ha] at h
        simp only [List.head?_cons, Option.some.injEq] at h
        subst h
        intro hya
        exact ha (by rw [hya])

theorem collapseOpt_chain_lt :
    ∀ (l : List Nat) (last : Option Nat),
      List.Pairwise (· ≤ ·) l →
      (∀ a, last = some a → ∀ x ∈ l, a ≤ x) →
      List.Chain' (· < ·) (collapseOpt last l) := by
  intro l
  induction l with
  | nil => intro last _ _; simp [collapseOpt]
  | cons t ts ih =>
      intro last hp hinv
      have hp' := List.pairwise_cons.mp hp
      by_cases h : last = some t
      · rw [collapseOpt, if_pos h]
        refine ih last hp'.2 ?_
        intro a ha x hx
        have hat : some a = some t := by rw [← ha, h]
        injection hat with hat
        subst hat
        exact hp'.1 x hx
      · rw [collapseOpt, if_neg h]
        rw [List.chain'_cons']
        constructor
        · intro y hy
          have hhead : (collapseOpt (some t) ts).head? = some y :=
            Option.mem_def.mp hy
          have hmem : y ∈ ts :=
            (collapseOpt_sublist ts (some t)).subset
              (List.mem_of_mem_head? hy)
          have hle : t ≤ y := hp'.1 y hmem
          have hne : y ≠ t := collapseOpt_head_ne ts t y hhead
          exact Nat.lt_of_le_of_ne hle (fun e => hne e.symm)
        · refine ih (some t) hp'.2 ?_
          intro a ha x hx
          injection ha with ha
          subst ha
          exact hp'.1 x hx

theorem collapseOpt_eq_self :
    ∀ (l : List Nat) (last : Option Nat),
      List.Chain' (· ≠ ·) l →
      (∀ a, last = some a → ∀ y, l.head? = some y → a ≠ y) →
      collapseOpt last l = l := by
  intro l
  induction l with
  | nil => intro last _ _; rfl
  | cons t ts ih =>
      intro last hc hinv
      have hc' := List.chain'_cons'.mp hc
      have hne : ¬ last = some t := by
        intro h
        exact hinv t h t rfl rfl
      rw [collapseOpt, if_neg hne]
      congr 1
      refine ih (some t) hc'.2 ?_
      intro a ha y hy
      injection ha with ha
      subst ha
      exact hc'.1 y (Option.mem_def.mpr hy)

theorem captureRow_length (n : Nat) (f : Nat → Int) :
    (captureRow n f).length = n := by
  simp [captureRow]

theorem captureRow_getD (n : Nat) (f : Nat → Int) (k : Nat)
    (hk1 : 1 ≤ k) (hkn : k ≤ n) :
    (captureRow n f).getD (k - 1) 0 = f k := by
  have hkn' : k - 1 < n :=
    Nat.lt_of_lt_of_le (Nat.sub_lt (Nat.lt_of_lt_of_le Nat.zero_lt_one hk1)
      Nat.zero_lt_one) hkn
  simp only [captureRow]
  rw [List.getD_eq_getElem _ _ (by simpa using hkn'), List.getElem_map,
    List.getElem_range, Nat.sub_add_cancel hk1]

theorem capture_row_length (n : Nat) (attrs : List Nat)
    (read : Nat → Nat → Int) :
    ∀ row ∈ capture n attrs read, row.length = n := by
  intro row hrow
  rcases List.mem_map.mp hrow with ⟨a, _, hrow⟩
  rw [← hrow]
  exact captureRow_length n (read a)

theorem mem_zipWith_append :
    ∀ (l : List (List (List Int))) (rows : List (List Int))
      (tbl' : List (List Int)),
      tbl' ∈ List.zipWith (fun tbl row => tbl ++ [row]) l rows →
      ∃ tbl ∈ l, ∃ row ∈ rows, tbl' = tbl ++ [row] := by
  intro l
  induction l with
  | nil => intro rows tbl' h; simp at h
  | cons a l ih =>
      intro rows tbl' h
      cases rows with
      | nil => simp at h
      | cons r rows =>
          rw [List.zipWith_cons_cons] at h
          rcases List.mem_cons.mp h with h | h
          · exact ⟨a, List.mem_cons_self a l, r, List.mem_cons_self r rows, h⟩
          · rcases ih rows tbl' h with ⟨tbl, htbl, row, hrow, he⟩
            exact ⟨tbl, List.mem_cons_of_mem a htbl, row,
              List.mem_cons_of_mem r hrow, he⟩

theorem wfShape_empty (n : Nat) (attrs : List Nat) :
    wfShape n attrs (emptyBundle attrs) := by
  refine ⟨by simp [emptyBundle], ?_, ?_⟩
  · intro tbl htbl
    rcases List.mem_map.mp htbl with ⟨a, _, he⟩
    simp [emptyBundle, ← he]
  · intro tbl htbl row hrow
    rcases List.mem_map.mp htbl with ⟨a, _, he⟩
    rw [← he] at hrow
    simp at hrow

theorem wfShape_step (n : Nat) (attrs : List Nat) (b : Bundle) (t : Nat)
    (read : Nat → Nat → Int) (hwf : wfShape n attrs b) :
    wfShape n attrs (stepBundle n attrs b t read) := by
  unfold stepBundle
  by_cases hrec : b.times.getLast? = some t
  · rw [if_pos hrec]; exact hwf
  · rw [if_neg hrec]
    rcases hwf with ⟨hlen, hrows, hcols⟩
    refine ⟨?_, ?_, ?_⟩
    · simp [appendRecord, List.length_zipWith, capture_length, hlen]
    · intro tbl' htbl'
      rcases mem_zipWith_append b.tables (capture n attrs read) tbl' htbl'
        with ⟨tbl, htbl, row, _, he⟩
      simp [appendRecord, he, hrows tbl htbl]
    · intro tbl' htbl' row' hrow'
      simp only [appendRecord] at htbl'
      rcases mem_zipWith_append b.tables (capture n attrs read) tbl' htbl'
        with ⟨tbl, htbl, row, hrow, he⟩
      rw [he] at hrow'
      rcases List.mem_append.mp hrow' with h | h
      · exact hcols tbl htbl row' h
      · rw [List.mem_singleton.mp h]
        exact capture_row_length n attrs read row hrow

theorem wfShape_finalize (n : Nat) (attrs : List Nat) (b : Bundle)
    (hwf : wfShape n attrs b) : wfShape n attrs (finalize b) := by
  rcases hwf with ⟨hlen, hrows, hcols⟩
  exact ⟨hlen, hrows, hcols⟩

theorem bundleTrace_wf (n : Nat) (attrs : List Nat) :
    ∀ (s : List StepResult) (b : Bundle), wfShape n attrs b →
      ∀ b' ∈ bundleTrace n attrs s b, wfShape n attrs b' := by
  intro s
  induction s with
  | nil =>
      intro b hwf b' hb'
      rw [List.mem_singleton.mp hb']
      exact hwf
  | cons hd rest ih =>
      intro b hwf b' hb'
      cases hd with
      | fail e =>
          rw [List.mem_singleton.mp hb']
          exact hwf
      | ok t read ts =>
          simp only [bundleTrace] at hb'
          rcases List.mem_cons.mp hb' with h | h
          · rw [h]; exact hwf
          · by_cases hts : ts = 0
            · rw [if_pos hts] at h
              rw [List.mem_singleton.mp h]
              exact wfShape_finalize n attrs _
                (wfShape_step n attrs b t read hwf)
            · rw [if_neg hts] at h
              exact ih (stepBundle n attrs b t read)
                (wfShape_step n attrs b t read hwf) b' h

theorem forall₂_append_zip :
    ∀ (l : List (List (List Int))) (rows : List (List Int)),
      l.length = rows.length →
      List.Forall₂ (fun tbl tbl' => ∃ u, tbl' = tbl ++ u) l
        (List.zipWith (fun tbl row => tbl ++ [row]) l rows) := by
  intro l
  induction l with
  | nil => intro rows _; exact List.Forall₂.nil
  | cons a l ih =>
      intro rows hlen
      cases rows with
      | nil => simp at hlen
      | cons r rows =>
          simp only [List.length_cons, Nat.succ.injEq] at hlen
          rw [List.zipWith_cons_cons]
          exact List.Forall₂.cons ⟨[r], rfl⟩ (ih rows hlen)

theorem extendsTo_refl (b : Bundle) : extendsTo b b := by
  refine ⟨⟨[], by simp⟩, ?_⟩
  rw [List.forall₂_same]
  intro tbl _
  exact ⟨[], by simp⟩

theorem extendsTo_step (n : Nat) (attrs : List Nat) (b : Bundle) (t : Nat)
    (read : Nat → Nat → Int) (hwf : wfShape n attrs b) :
    extendsTo b (stepBundle n attrs b t read) := by
  unfold stepBundle
  by_cases hrec : b.times.getLast? = some t
  · rw [if_pos hrec]; exact extendsTo_refl b
  · rw [if_neg hrec]
    refine ⟨⟨[t], rfl⟩, ?_⟩
    exact forall₂_append_zip b.tables (capture n attrs read)
      (by rw [capture_length, hwf.1])

theorem extendsTo_finalize (b b' : Bundle) (h : extendsTo b b') :
    extendsTo b (finalize b') :=
  h

theorem bundleTrace_head (n : Nat) (attrs : List Nat) :
    ∀ (s : List StepResult) (b : Bundle),
      (bundleTrace n attrs s b).head? = some b := by
  intro s b
  cases s with
  | nil => rfl
  | cons hd rest => cases hd <;> rfl

theorem bundleTrace_chain (n : Nat) (attrs : List Nat) :
    ∀ (s : List StepResult) (b : Bundle), wfShape n attrs b →
      List.Chain' extendsTo (bundleTrace n attrs s b) := by
  intro s
  induction s with
  | nil => intro b _; simp [bundleTrace]
  | cons hd rest ih =>
      intro b hwf
      cases hd with
      | fail e => simp [bundleTrace]
      | ok t read ts =>
          simp only [bundleTrace]
          by_cases hts : ts = 0
          · rw [if_pos hts]
            refine List.chain'_cons'.mpr ⟨?_, ?_⟩
            · intro y hy
              simp only [List.head?_cons, Option.mem_def,
                Option.some.injEq] at hy
              rw [← hy]
              exact extendsTo_finalize b _
                (extendsTo_step n attrs b t read hwf)
            · simp
          · rw [if_neg hts]
            refine List.chain'_cons'.mpr ⟨?_, ?_⟩
            · intro y hy
              rw [bundleTrace_head n attrs rest (stepBundle n attrs b t read)]
                at hy
              simp only [Option.mem_def, Option.some.injEq] at hy
              rw [← hy]
              exact extendsTo_step n attrs b t read hwf
            · exact ih (stepBundle n attrs b t read)
                (wfShape_step n attrs b t read hwf)

theorem runSeries_times (n : Nat) (attrs : List Nat) (s : List StepResult)
    (b : Bundle) (h : runSeries n attrs s = .ok b) :
    b.times = collapseOpt none (okTimes s) := by
  have := runSeriesAux_times n attrs s (emptyBundle attrs) b h
  simpa [emptyBundle] using this

theorem runSeries_tables (n : Nat) (attrs : List Nat) (s : List StepResult)
    (b : Bundle) (h : runSeries n attrs s = .ok b) :
    b.tables =
      attrs.map (fun a => (keptReads none s).map (fun g => captureRow n (g a))) := by
  have hlen : (emptyBundle attrs).tables.length = attrs.length := by
    simp [emptyBundle]
  have htab := runSeriesAux_tables n attrs s (emptyBundle attrs) b hlen h
  rw [htab]
  simp only [emptyBundle]
  rw [List.zipWith_map_left]
  exact zipWithConstSame
    (fun a => (keptReads none s).map (fun g => captureRow n (g a))) attrs

/-- Claim C1: in every driver run (hydraulic, quality, or either half of a
combined run), at every point during and after the run -- duplicate-time
engine steps included -- every bundle state the aggregator passes through has
one table per attribute, every table has exactly one row per recorded time and
one column per entity, and consecutive states only ever append rows at the
end: the column order fixed at creation is never reordered. -/
theorem bundle_shape_invariant_and_append_only (n : Nat) (attrs : List Nat)
    (s : List StepResult) :
    (∀ b ∈ bundleTrace n attrs s (emptyBundle attrs), wfShape n attrs b) ∧
    List.Chain' extendsTo (bundleTrace n attrs s (emptyBundle attrs)) :=
  ⟨bundleTrace_wf n attrs s (emptyBundle attrs) (wfShape_empty n attrs),
   bundleTrace_chain n attrs s (emptyBundle attrs) (wfShape_empty n attrs)⟩

/-- Engine script for the shape-invariant witness: three steps, the second a
duplicate-time step at clock time 0. -/
def c1Script : List StepResult :=
  [.ok 0 (fun _ _ => 5) 1800, .ok 0 (fun _ _ => 6) 1800,
   .ok 3600 (fun _ _ => 7) 0]

/-- Witness: the finalized bundle of the duplicate-time run is a state of the
trace and satisfies the shape invariant. -/
theorem bundle_shape_invariant_witness :
    Bundle.mk [0, 3600] [[[5], [7]]] true ∈
      bundleTrace 1 [0] c1Script (emptyBundle [0]) ∧
    wfShape 1 [0] (Bundle.mk [0, 3600] [[[5], [7]]] true) :=
  ⟨by decide,
   (bundle_shape_invariant_and_append_only 1 [0] c1Script).1
     (Bundle.mk [0, 3600] [[[5], [7]]] true) (by decide)⟩

/-- Engine script on which the literal recorded-count claim fails: three
successful `runStep` calls, the second at a duplicate clock time. -/
def c2Script : List StepResult :=
  [.ok 0 (fun _ _ => 7) 1800, .ok 0 (fun _ _ => 7) 1800,
   .ok 3600 (fun _ _ => 7) 0]

/-- Counterexample to claim C2 as stated: on a run with a duplicate-time step
the bundle records 2 times although 3 `runStep` calls returned successfully
before `advance` returned 0, so the two counts differ. -/
theorem recorded_count_counterexample :
    (recordedTimes (runHydraulicSeries 1 [0] c2Script)).length = 2 ∧
    (okTimes c2Script).length = 3 ∧
    (recordedTimes (runHydraulicSeries 1 [0] c2Script)).length ≠
      (okTimes c2Script).length := by
  refine ⟨rfl, rfl, by decide⟩

/-- Claim C2 (amended): the recorded times of a hydraulic run are exactly the
clock times of the successful `runStep` calls made before `advance` returned
0, after collapsing consecutive duplicate-time steps; in particular the
recorded count equals the successful-`runStep` count whenever the engine
reports no consecutive duplicate clock times. -/
theorem recorded_count_amended (n : Nat) (attrs : List Nat)
    (s : List StepResult) (b : Bundle)
    (h : runHydraulicSeries n attrs s = .ok b) :
    b.times = collapseOpt none (okTimes s) ∧
    (List.Chain' (fun a c => a ≠ c) (okTimes s) →
      b.times.length = (okTimes s).length) := by
  have ht := runSeries_times n attrs s b h
  refine ⟨ht, ?_⟩
  intro hchain
  rw [ht, collapseOpt_eq_self (okTimes s) none hchain
    (fun a ha => by cases ha)]

/-- Engine script with distinct clock times for the amended-count witness. -/
def c2AmendScript : List StepResult :=
  [.ok 0 (fun _ _ => 7) 3600, .ok 3600 (fun _ _ => 7) 0]

/-- The bundle the amended-count witness run produces. -/
def c2AmendBundle : Bundle := Bundle.mk [0, 3600] [[[7], [7]]] true

/-- Witness for the amended recorded-count claim on a duplicate-free run. -/
theorem recorded_count_amended_witness :
    runHydraulicSeries 1 [0] c2AmendScript = .ok c2AmendBundle ∧
    (c2AmendBundle.times = collapseOpt none (okTimes c2AmendScript) ∧
      (List.Chain' (fun a c => a ≠ c) (okTimes c2AmendScript) →
        c2AmendBundle.times.length = (okTimes c2AmendScript).length)) :=
  ⟨rfl, recorded_count_amended 1 [0] c2AmendScript c2AmendBundle rfl⟩

/-- Claim C3: when the engine's first `runStep` raises `ConvergenceError` at
clock time 0, the hydraulic run fails with a `ConvergenceError` carrying time
0, consumes exactly that one engine interaction (no retry), and yields no
bundle at all. -/
theorem convergence_failure_at_time_zero (n : Nat) (attrs : List Nat)
    (rest : List StepResult) :
    runHydraulicSeries n attrs (.fail (.convergence 0) :: rest) =
      .error (.convergence 0) ∧
    isOkRun (runHydraulicSeries n attrs (.fail (.convergence 0) :: rest)) =
      false ∧
    consumedSteps (.fail (.convergence 0) :: rest) =
      [.fail (.convergence 0)] :=
  ⟨rfl, rfl, rfl⟩

/-- Claim C4: in a combined run, a hydraulic failure surfaces as the combined
result without the quality run ever being attempted (the outcome does not
depend on the quality inputs at all), and once the hydraulic run succeeded its
finalized bundle stays accessible unchanged in the combined outcome, whatever
the quality initialization or run does. -/
theorem combined_failure_isolation (n : Nat) (hAttrs qAttrs : List Nat)
    (cs : CombinedScript) :
    (∀ e, runHydraulicSeries n hAttrs cs.hydScript = .error e →
        runCombinedSeries n hAttrs qAttrs cs = .hydFailed e ∧
        ∀ (qi : Bool) (qs : List StepResult),
          runCombinedSeries n hAttrs qAttrs ⟨cs.hydScript, qi, qs⟩ =
            .hydFailed e) ∧
    (∀ hb, runHydraulicSeries n hAttrs cs.hydScript = .ok hb →
        hydBundleOf (runCombinedSeries n hAttrs qAttrs cs) = some hb) := by
  constructor
  · intro e he
    constructor
    · simp [runCombinedSeries, he]
    · intro qi qs
      simp [runCombinedSeries, he]
  · intro hb hok
    simp only [runCombinedSeries, hok]
    by_cases hqi : cs.qualInitOk
    · simp only [hqi, if_pos]
      cases hq : runQualitySeries n qAttrs cs.qualScript with
      | error e => simp [hydBundleOf]
      | ok qb => simp [hydBundleOf]
    · simp [hqi, hydBundleOf]

/-- Combined-run inputs whose hydraulic half fails at time 0. -/
def c4FailCS : CombinedScript :=
  CombinedScript.mk [.fail (.convergence 0)] true []

/-- Combined-run inputs whose hydraulic half succeeds and whose quality
initialization fails. -/
def c4OkCS : CombinedScript :=
  CombinedScript.mk [.ok 0 (fun _ _ => 7) 0] false []

/-- The hydraulic bundle finalized before the quality failure of `c4OkCS`. -/
def c4HydBundle : Bundle := Bundle.mk [0] [[[7]]] true

/-- Witness for the combined-run failure isolation claim. -/
theorem combined_failure_isolation_witness :
    runHydraulicSeries 1 [0] c4FailCS.hydScript = .error (.convergence 0) ∧
    runCombinedSeries 1 [0] [0] c4FailCS = .hydFailed (.convergence 0) ∧
    runHydraulicSeries 1 [0] c4OkCS.hydScript = .ok c4HydBundle ∧
    hydBundleOf (runCombinedSeries 1 [0] [0] c4OkCS) = some c4HydBundle :=
  ⟨rfl,
   ((combined_failure_isolation 1 [0] [0] c4FailCS).1
     (.convergence 0) rfl).1,
   rfl,
   (combined_failure_isolation 1 [0] [0] c4OkCS).2 c4HydBundle rfl⟩

/-- Claim C5: `close` is idempotent: a second `close` on the same session
changes nothing, the handle is closed after any `close`, and no second
native release takes place. -/
theorem close_idempotent (s : Session) :
    close (close s) = close s ∧ (close s).handleOpen = false ∧
    (close (close s)).releases = (close s).releases := by
  by_cases h : s.handleOpen
  · simp [close, h]
  · simp [close, h]

/-- Claim C6: a run whose first step the engine reports as immediately
terminal (in particular a zero-duration run, whose single step is the
steady-state solution at clock time 0) succeeds and yields a one-row bundle,
never an empty one: the recorded times are exactly `[t]` and every attribute
table has exactly one row. -/
theorem terminal_first_step_one_row (n : Nat) (attrs : List Nat) (t : Nat)
    (read : Nat → Nat → Int) (rest : List StepResult) :
    isOkRun (runHydraulicSeries n attrs (.ok t read 0 :: rest)) = true ∧
    recordedTimes (runHydraulicSeries n attrs (.ok t read 0 :: rest)) = [t] ∧
    (tablesOf (runHydraulicSeries n attrs (.ok t read 0 :: rest))).all
      (fun tbl => tbl.length == 1) = true := by
  have hok : runHydraulicSeries n attrs (.ok t read 0 :: rest) =
      .ok (finalize (appendRecord (emptyBundle attrs) t
        (capture n attrs read))) := rfl
  refine ⟨by rw [hok]; rfl, by rw [hok]; rfl, ?_⟩
  have htab := runSeries_tables n attrs (.ok t read 0 :: rest)
    (finalize (appendRecord (emptyBundle attrs) t (capture n attrs read))) hok
  rw [hok]
  simp only [tablesOf]
  rw [htab]
  simp [List.all_eq_true, keptReads]

/-- Claim C7: for every finalized bundle of a run in which the engine reports
non-decreasing clock times, the recorded times are a sublist of the
engine-reported times in the exact order the engine produced them (no
reordering), they are non-decreasing, and -- duplicate-time zero-length steps
being collapsed by the driver -- they are strictly increasing. -/
theorem recorded_times_ordered (n : Nat) (attrs : List Nat)
    (s : List StepResult) (b : Bundle)
    (h : runHydraulicSeries n attrs s = .ok b)
    (hmono : List.Chain' (fun a c => a ≤ c) (okTimes s)) :
    List.Sublist b.times (okTimes s) ∧
    List.Chain' (fun a c => a < c) b.times ∧
    List.Chain' (fun a c => a ≤ c) b.times := by
  have ht := runSeries_times n attrs s b h
  have hpair : List.Pairwise (fun a c => a ≤ c) (okTimes s) :=
    List.chain'_iff_pairwise.mp hmono
  have hlt : List.Chain' (fun a c => a < c) b.times := by
    rw [ht]
    exact collapseOpt_chain_lt (okTimes s) none hpair (fun a ha => by cases ha)
  refine ⟨?_, hlt, ?_⟩
  · rw [ht]
    exact collapseOpt_sublist (okTimes s) none
  · exact hlt.imp (fun a c hac => Nat.le_of_lt hac)

/-- Engine script with a duplicate-time step for the ordering witness. -/
def c7Script : List StepResult :=
  [.ok 0 (fun _ _ => 7) 1800, .ok 0 (fun _ _ => 7) 1800,
   .ok 3600 (fun _ _ => 7) 0]

/-- The bundle the ordering witness run produces. -/
def c7Bundle : Bundle := Bundle.mk [0, 3600] [[[7], [7]]] true

/-- Witness for the ordering claim on a run with a duplicate-time step. -/
theorem recorded_times_ordered_witness :
    runHydraulicSeries 1 [0] c7Script = .ok c7Bundle ∧
    List.Chain' (fun a c => a ≤ c) (okTimes c7Script) ∧
    (List.Sublist c7Bundle.times (okTimes c7Script) ∧
      List.Chain' (fun a c => a < c) c7Bundle.times ∧
      List.Chain' (fun a c => a ≤ c) c7Bundle.times) :=
  ⟨rfl, by simp [c7Script, okTimes, List.chain'_cons],
   recorded_times_ordered 1 [0] c7Script c7Bundle rfl
     (by simp [c7Script, okTimes, List.chain'_cons])⟩

/-- Claim C8: a successful combined run returns exactly the two bundles the
hydraulic and quality drivers produced, each exposing its own recorded-times
sequence and tables; neither sub-bundle is reindexed onto a common grid. -/
theorem combined_exposes_both_bundles (n : Nat) (hAttrs qAttrs : List Nat)
    (cs : CombinedScript) (hb qb : Bundle)
    (hh : runHydraulicSeries n hAttrs cs.hydScript = .ok hb)
    (hqi : cs.qualInitOk = true)
    (hq : runQualitySeries n qAttrs cs.qualScript = .ok qb) :
    runCombinedSeries n hAttrs qAttrs cs = .ok hb qb ∧
    hydBundleOf (runCombinedSeries n hAttrs qAttrs cs) = some hb ∧
    qualBundleOf (runCombinedSeries n hAttrs qAttrs cs) = some qb := by
  have hc : runCombinedSeries n hAttrs qAttrs cs = .ok hb qb := by
    simp [runCombinedSeries, hh, hqi, hq]
  exact ⟨hc, by rw [hc]; rfl, by rw [hc]; rfl⟩

/-- Combined-run inputs whose hydraulic half records 2 times and whose
quality half records 3 times on a finer step. -/
def c8CS : CombinedScript :=
  CombinedScript.mk
    [.ok 0 (fun _ _ => 1) 3600, .ok 3600 (fun _ _ => 2) 0]
    true
    [.ok 0 (fun _ _ => 3) 1200, .ok 1200 (fun _ _ => 4) 1200,
     .ok 2400 (fun _ _ => 5) 0]

/-- The hydraulic bundle of the combined witness run. -/
def c8Hyd : Bundle := Bundle.mk [0, 3600] [[[1], [2]]] true

/-- The quality bundle of the combined witness run. -/
def c8Qual : Bundle := Bundle.mk [0, 1200, 2400] [[[3], [4], [5]]] true

/-- Witness for the combined-bundle claim: both sub-bundles are exposed and
their recorded-times sequences differ in length. -/
theorem combined_exposes_both_bundles_witness :
    runHydraulicSeries 1 [0] c8CS.hydScript = .ok c8Hyd ∧
    c8CS.qualInitOk = true ∧
    runQualitySeries 1 [0] c8CS.qualScript = .ok c8Qual ∧
    (runCombinedSeries 1 [0] [0] c8CS = .ok c8Hyd c8Qual ∧
      hydBundleOf (runCombinedSeries 1 [0] [0] c8CS) = some c8Hyd ∧
      qualBundleOf (runCombinedSeries 1 [0] [0] c8CS) = some c8Qual) ∧
    c8Hyd.times.length ≠ c8Qual.times.length :=
  ⟨rfl, rfl, rfl,
   combined_exposes_both_bundles 1 [0] [0] c8CS c8Hyd c8Qual rfl rfl rfl,
   by decide⟩

/-- Claim C9: result tables are addressed as `[time-row, entityIndex - 1]`:
for every entity with 1-based index `k`, row `j` of attribute table `i` holds
at 0-based column `k - 1` exactly the value the engine reported for entity
`k` under attribute `i` at the `j`-th recorded step. -/
theorem table_column_is_entity_index_minus_one (n : Nat) (attrs : List Nat)
    (s : List StepResult) (b : Bundle) (i j k : Nat)
    (h : runHydraulicSeries n attrs s = .ok b)
    (hi : i < attrs.length)
    (hj : j < (keptReads none s).length)
    (hk1 : 1 ≤ k) (hkn : k ≤ n) :
    ((b.tables.getD i []).getD j []).getD (k - 1) 0 =
      (keptReads none s).getD j (fun _ _ => 0) (attrs.getD i 0) k := by
  have htab := runSeries_tables n attrs s b h
  have h1 : b.tables.getD i [] =
      (keptReads none s).map
        (fun g => captureRow n (g (attrs.getD i 0))) := by
    rw [htab]
    have hi' : i < (attrs.map (fun a =>
        (keptReads none s).map (fun g => captureRow n (g a)))).length := by
      simpa using hi
    rw [List.getD_eq_getElem _ _ hi', List.getElem_map,
      List.getD_eq_getElem _ _ hi]
  have h2 : (b.tables.getD i []).getD j [] =
      captureRow n
        ((keptReads none s).getD j (fun _ _ => 0) (attrs.getD i 0)) := by
    rw [h1]
    have hj' : j < ((keptReads none s).map
        (fun g => captureRow n (g (attrs.getD i 0)))).length := by
      simpa using hj
    rw [List.getD_eq_getElem _ _ hj', List.getElem_map,
      List.getD_eq_getElem _ _ hj]
  rw [h2]
  exact captureRow_getD n _ k hk1 hkn

/-- Engine script for the column-addressing witness: one terminal step whose
snapshot assigns entity `e` the value `100 * a + e` under attribute `a`. -/
def c9Script : List StepResult :=
  [.ok 0 (fun a e => Int.ofNat (100 * a + e)) 0]

/-- The bundle the column-addressing witness run produces. -/
def c9Bundle : Bundle := Bundle.mk [0] [[[701, 702]]] true

/-- Witness: with 2 entities and attribute 7, the entity with 1-based index 2
is found at 0-based column 1 and holds the engine value 702. -/
theorem table_column_witness :
    runHydraulicSeries 2 [7] c9Script = .ok c9Bundle ∧
    0 < 1 ∧ 0 < (keptReads none c9Script).length ∧ 1 ≤ 2 ∧ 2 ≤ 2 ∧
    ((c9Bundle.tables.getD 0 []).getD 0 []).getD (2 - 1) 0 =
      (keptReads none c9Script).getD 0 (fun _ _ => 0)
        (List.getD [7] 0 0) 2 :=
  ⟨rfl, by decide, by decide, by decide, by decide,
   table_column_is_entity_index_minus_one 2 [7] c9Script c9Bundle 0 0 2 rfl
     (by decide) (by decide) (by decide) (by decide)⟩

/-- Claim C10: on the same open model, setting the diameter of the link with
1-based index `i` and immediately reading it back returns the written value,
with no reload in between. -/
theorem link_diameter_roundtrip (m : NetworkModel) (i : Nat) (v : Int)
    (h1 : 1 ≤ i) (h2 : i ≤ m.linkDiameters.length) :
    getLinkDiameter (setLinkDiameter m i v) i = v := by
  unfold getLinkDiameter setLinkDiameter
  have hlt : i - 1 < m.linkDiameters.length :=
    Nat.lt_of_lt_of_le (Nat.sub_lt (Nat.lt_of_lt_of_le Nat.zero_lt_one h1)
      Nat.zero_lt_one) h2
  rw [List.getD_eq_getElem _ _ (by simpa using hlt)]
  exact List.getElem_set_self _

/-- Witness: writing diameter 90 to link 2 of a two-link model and reading it
back returns 90. -/
theorem link_diameter_roundtrip_witness :
    1 ≤ 2 ∧ 2 ≤ (NetworkModel.mk [100, 50]).linkDiameters.length ∧
    getLinkDiameter (setLinkDiameter (NetworkModel.mk [100, 50]) 2 90) 2 =
      90 :=
  ⟨by decide, by decide,
   link_diameter_roundtrip (NetworkModel.mk [100, 50]) 2 90 (by decide)
     (by decide)⟩

end EPyT
